import Mathlib

/-!
# Verification of the S3 bucket migration pipeline (migrate.go)

A shallow embedding of `migrate.go`: the key ↔ local-path mapping
(`filepath.Join` / `filepath.Rel` / `filepath.ToSlash` / `strings.TrimPrefix`
on a Unix platform, where `filepath.Separator` is `/`), the download loop of
`downloadFiles`, the upload walk of `uploadFiles`, and the phase sequencing of
`main`.  Strings are modelled as `String` (lists of characters); the path
functions are translated byte-for-byte from Go's `path/filepath` lexical
algorithms, which the program relies on.  External collaborators (the S3
service and the filesystem) are modelled as explicit outcome environments:
every per-call success/failure pattern is a possible environment, and the
theorems quantify over them.
-/

/-! ## Path model: Go `path/filepath` on Unix

`migrate.go` maps an object key to a staging path with
`filepath.Join(localPath, key)` (line 99) and maps a staged path back to an
upload key with `filepath.Rel(directory, path)` + `filepath.ToSlash` +
`strings.TrimPrefix(…, "./")` (lines 162–165).  On Unix `Separator = '/'`.
Paths are handled here as `List Char` with `String` wrappers. -/

/-- A path element (the text between `/` separators). -/
abbrev Seg := List Char

/-- Split a character list at every `'/'`, keeping empty fields — the element
scanning that Go's `Clean` and `Rel` perform byte by byte. -/
def splitSlash : List Char → List Seg
  | [] => [[]]
  | c :: cs =>
    if c = '/' then [] :: splitSlash cs
    else (c :: (splitSlash cs).headD []) :: (splitSlash cs).tail

/-- The nonempty elements of a path, as Go's `Clean` consumes them (a run of
separators counts as one, leading/trailing separators contribute nothing). -/
def segsOf (p : List Char) : List Seg := (splitSlash p).filter (fun s => s ≠ [])

/-- Rooted (absolute) test: Go's `path[0] == '/'`. -/
def isAbsL (p : List Char) : Bool := p.headD ' ' = '/'

/-- One step of Go `path.Clean`'s element loop: `.` is dropped, `..` pops a
poppable stack entry (or is kept at the front of a relative path, or dropped at
the root of an absolute one), anything else is pushed. The stack holds the
output elements in reverse. -/
def cleanStep (rooted : Bool) (stack : List Seg) (seg : Seg) : List Seg :=
  if seg = ['.'] then stack
  else if seg = ['.', '.'] then
    match stack with
    | [] => if rooted then [] else [['.', '.']]
    | top :: below => if top = ['.', '.'] then seg :: top :: below else below
  else seg :: stack

/-- The cleaned element list of a path, given its elements. -/
def cleanSegs (rooted : Bool) (l : List Seg) : List Seg :=
  (l.foldl (cleanStep rooted) []).reverse

/-- Join elements with `'/'` separators (Go's output buffer writing). -/
def joinSegs : List Seg → List Char
  | [] => []
  | [s] => s
  | s :: s2 :: rest => s ++ '/' :: joinSegs (s2 :: rest)

/-- Print a cleaned element list back as a path: Go `Clean`'s output rules —
empty output is `"."` (or `"/"` when rooted), otherwise the elements joined,
with a leading `'/'` when rooted. -/
def renderPath (rooted : Bool) (l : List Seg) : List Char :=
  if l = [] then (if rooted then ['/'] else ['.'])
  else (if rooted then '/' :: joinSegs l else joinSegs l)

/-- Go `path.Clean` (equals `filepath.Clean` on Unix): shortest lexically
equivalent path. -/
def cleanL (p : List Char) : List Char :=
  if p = [] then ['.']
  else renderPath (isAbsL p) (cleanSegs (isAbsL p) (segsOf p))

/-- Go `filepath.Join(a, b)` on Unix: skip empty arguments, join the rest with
the separator, `Clean` the result (`Join()` of all-empty arguments is `""`). -/
def joinL (a b : List Char) : List Char :=
  if a = [] then (if b = [] then [] else cleanL b)
  else cleanL (a ++ '/' :: b)

/-- Length of the longest common prefix of two element lists — where Go
`filepath.Rel`'s scan positions `b0`/`t0` at the first differing elements. -/
def lcpLen : List Seg → List Seg → Nat
  | a :: as1, b :: bs1 => if a = b then lcpLen as1 bs1 + 1 else 0
  | _, _ => 0

/-- Go `filepath.Rel(basepath, targpath)` on Unix: both paths are `Clean`ed,
equal paths give `"."`, a base of `"."` counts as empty, mixing rooted and
relative paths is an error (`none`), otherwise the common element prefix is
dropped and every remaining base element becomes a `".."` in front of the
remaining target elements; a remaining base `".."` is an error. -/
def relL (basepath targpath : List Char) : Option (List Char) :=
  let base := cleanL basepath
  let targ := cleanL targpath
  if targ = base then some ['.']
  else
    let base2 := if base = ['.'] then [] else base
    if isAbsL base2 ≠ isAbsL targ then none
    else
      let bs := segsOf base2
      let ts := segsOf targ
      let n := lcpLen bs ts
      let brem := bs.drop n
      let trem := ts.drop n
      if brem.headD [] = ['.', '.'] then none
      else some (joinSegs (List.replicate brem.length ['.', '.'] ++ trem))

/-- Go `filepath.ToSlash` on Unix: `Separator` is already `'/'`, so every
character is kept. -/
def toSlashL (p : List Char) : List Char :=
  p.map (fun c => if c = '/' then '/' else c)

/-- Go `strings.TrimPrefix`: drop `pre` from the front of `s` when it is a
prefix of `s`, otherwise return `s` unchanged. -/
def trimLeading (s pre : List Char) : List Char :=
  if pre.isPrefixOf s then s.drop pre.length else s

/-- `migrate.go` line 99: `localFilePath := filepath.Join(localPath, *object.Key)`. -/
def toLocalPathL (dir key : List Char) : List Char := joinL dir key

/-- `migrate.go` lines 162–165: `relPath, _ := filepath.Rel(directory, path)`
(a `Rel` error is ignored, leaving the empty string), then
`uploadKey := filepath.ToSlash(relPath)`, then
`uploadKey = strings.TrimPrefix(uploadKey, "./")`. -/
def toObjectKeyL (dir path : List Char) : List Char :=
  trimLeading (toSlashL ((relL dir path).getD [])) ['.', '/']

/-- String wrapper for the staging path of an object key. -/
def toLocalPath (dir key : String) : String := ⟨toLocalPathL dir.data key.data⟩

/-- String wrapper for the upload key of a staged path. -/
def toObjectKey (dir path : String) : String := ⟨toObjectKeyL dir.data path.data⟩

/-! ## The download phase (`downloadFiles`, lines 79–135)

`downloadFiles` issues one `ListObjects` call, returns its error if the call
fails, and otherwise loops over the returned `Contents`.  Per object the code
runs `MkdirAll(Dir(localFilePath))`, `GetObject`, and — only when
`*object.Size > int64(0)` — `os.Create` followed by `io.Copy`; each failure is
printed and `continue`s the loop, and the function always returns `nil` after
the loop.  The S3 service and the filesystem are modelled by an outcome
environment assigning each object key the success/failure of those four calls. -/

/-- An entry of `ListObjects` `Contents`: `*object.Key` and `*object.Size`. -/
structure S3Object where
  key : String
  size : Int
  deriving DecidableEq, Repr

/-- The outcome the environment (S3 service + filesystem) gives the four
per-object calls for one key: `MkdirAll`, `GetObject`, `os.Create`, `io.Copy`. -/
structure DownloadOutcome where
  mkdirOk : Bool
  getOk : Bool
  createOk : Bool
  copyOk : Bool

/-- An environment where every call succeeds. -/
def allOk : DownloadOutcome := ⟨true, true, true, true⟩

/-- The observable state of the download loop: the staging tree as a list of
`(local file path, fully written?)` pairs — `os.Create` makes the file exist
even when the subsequent `io.Copy` fails, so the Boolean records whether the
copy succeeded; the keys for which a `GetObject` request was issued, in order;
and the number of staging file handles currently open.  `defer
localFile.Close()` (line 123) sits inside the loop, so each close runs only
when `downloadFiles` itself returns — every handle opened by `os.Create`
stays open for the rest of the enumeration, and the count only grows. -/
structure DLState where
  tree : List (String × Bool)
  gets : List String
  openHandles : Nat
  deriving Repr

/-- `os.Create` truncates: creating a path that already exists replaces the
old file at that path. -/
def treeInsert (t : List (String × Bool)) (p : String) (full : Bool) :
    List (String × Bool) :=
  t.filter (fun q => q.1 ≠ p) ++ [(p, full)]

/-- One iteration of the loop at lines 98–132, for object `o`:
line 101 `MkdirAll` failure continues before any fetch; line 111 `GetObject`
is issued next and its failure continues; line 117 guards `os.Create` and
`io.Copy` by `*object.Size > int64(0)`; a create failure continues, a copy
failure continues but leaves the created file behind.  Every successful
`os.Create` adds an open handle that is not released within the loop. -/
def downloadStep (dir : String) (env : String → DownloadOutcome)
    (s : DLState) (o : S3Object) : DLState :=
  let oc := env o.key
  let lp := toLocalPath dir o.key
  if oc.mkdirOk = false then s
  else if oc.getOk = false then { s with gets := s.gets ++ [o.key] }
  else if 0 < o.size then
    if oc.createOk = false then { s with gets := s.gets ++ [o.key] }
    else { tree := treeInsert s.tree lp oc.copyOk,
           gets := s.gets ++ [o.key],
           openHandles := s.openHandles + 1 }
  else { s with gets := s.gets ++ [o.key] }

/-- The whole loop over the listed objects, starting from the empty staging
area `main` just created. -/
def runDownload (dir : String) (env : String → DownloadOutcome)
    (objs : List S3Object) : DLState :=
  objs.foldl (downloadStep dir env) ⟨[], [], 0⟩

/-- A fatal listing failure (`ListingFailed`). -/
inductive ListErr where
  | listingFailed
  deriving DecidableEq

/-- The reply of the single `client.ListObjects` call (lines 89–93): the
`Contents` page and the result-truncation marker `IsTruncated`. -/
structure ListObjectsOutput where
  contents : List S3Object
  isTruncated : Bool

/-- The `ListObjects` call made against a bucket whose full listing is split
into `pages`: one call returns the first page, with `IsTruncated` set exactly
when further pages exist.  `downloadFiles` never issues a second call. -/
def listObjectsCall (pages : List (List S3Object)) : ListObjectsOutput :=
  { contents := pages.headD [], isTruncated := decide (pages.length > 1) }

/-- All objects actually in the bucket: every page. -/
def bucketObjects (pages : List (List S3Object)) : List S3Object := pages.flatten

/-- `downloadFiles` (lines 79–135): return the listing error if `ListObjects`
failed (lines 93–96); otherwise loop over `listObjectsOutput.Contents` —
only the `Contents` field is consulted, `IsTruncated` is ignored — and return
`nil` (line 134) whatever the per-object outcomes were. -/
def downloadFiles (dir : String) (listing : Except ListErr ListObjectsOutput)
    (env : String → DownloadOutcome) : Except ListErr DLState :=
  match listing with
  | .error e => .error e
  | .ok out => .ok (runDownload dir env out.contents)

/-! ## The upload phase (`uploadFiles`, lines 137–184)

`filepath.Walk(directory, fn)` feeds the callback every entry of the staging
tree in walk order; the callback's returned error aborts the walk.  Per entry:
a walk error is returned as is (line 148), directories are skipped (line 152),
`os.Open` failure is returned (lines 156–159) — before any size check — the
upload key is computed (lines 162–165), and `PutObject` is called only when
`info.Size() > 0` (line 173), its failure returned (line 176).  The walk and
the filesystem are modelled by the list of entries the walk visits, each
carrying its per-entry outcomes. -/

/-- One entry the walk visits: its path, `FileInfo` facts, and the outcomes
the environment gives the walk itself, `os.Open` and `PutObject` there. -/
structure WalkEntry where
  path : String
  isDir : Bool
  size : Int
  walkErr : Bool
  openOk : Bool
  putOk : Bool

/-- What the upload callback can fail with. -/
inductive UploadErr where
  | walkErr
  | openErr
  | putErr
  deriving DecidableEq, Repr

/-- The keys for which a `PutObject` request was issued, in order. -/
structure ULState where
  puts : List String
  deriving Repr

/-- The walk: first callback error aborts; a failing `PutObject` was still
attempted, so its key is recorded before the abort. -/
def runUpload (dir : String) : List WalkEntry → ULState → ULState × Option UploadErr
  | [], s => (s, none)
  | e :: rest, s =>
    if e.walkErr then (s, some .walkErr)
    else if e.isDir then runUpload dir rest s
    else if e.openOk = false then (s, some .openErr)
    else
      let key := toObjectKey dir e.path
      if 0 < e.size then
        if e.putOk then runUpload dir rest ⟨s.puts ++ [key]⟩
        else (⟨s.puts ++ [key]⟩, some .putErr)
      else runUpload dir rest s

/-- `uploadFiles` (lines 137–184): run the walk from a fresh state and return
the callback's first error, `none` on success. -/
def uploadFilesM (dir : String) (entries : List WalkEntry) : Option UploadErr :=
  (runUpload dir entries ⟨[]⟩).2

/-! ## The pipeline (`main`, lines 31–64)

`main` reads the config, creates the staging directory, downloads, uploads,
removes the staging directory; each failure prints its message and exits with
status 1, the success path prints the completion message (exit status 0).
The abstract collaborator outcomes are gathered in an environment record. -/

/-- Everything the world decides during one run of `main`. -/
structure MainEnv where
  configOk : Bool
  mkdirOk : Bool
  listing : Except ListErr ListObjectsOutput
  dlEnv : String → DownloadOutcome
  stagingDir : String
  entries : List WalkEntry
  removeOk : Bool

/-- The run of `main`: exit status, the message printed last, and whether the
staging directory is still present afterwards (created by `MkdirAll` at line
40, removed only by a successful `RemoveAll` at line 57). -/
def mainRun (env : MainEnv) : Nat × String × Bool :=
  if env.configOk = false then (1, "Error reading config file:", false)
  else if env.mkdirOk = false then (1, "Error creating download directory:", false)
  else
    match downloadFiles env.stagingDir env.listing env.dlEnv with
    | .error _ => (1, "Error downloading files:", true)
    | .ok _ =>
      match uploadFilesM env.stagingDir env.entries with
      | some _ => (1, "Error uploading files:", true)
      | none =>
        if env.removeOk = false then (1, "Error deleting files and directory:", true)
        else (0, "Download and upload complete. Deleted local files and directory.", false)

/-! ## Characterizing the download loop -/

/-- The condition under which the loop body reaches `os.Create` successfully
for object `o`: directory creation, fetch and create all succeed and the
object's size is positive. -/
def stagedCond (env : String → DownloadOutcome) (o : S3Object) : Bool :=
  (env o.key).mkdirOk && (env o.key).getOk && decide (0 < o.size) && (env o.key).createOk

/-- The staging-tree entry object `o` contributes: its local path with the
copy result, when `stagedCond` holds. -/
def stagedEntry (dir : String) (env : String → DownloadOutcome) (o : S3Object) :
    Option (String × Bool) :=
  if stagedCond env o then some (toLocalPath dir o.key, (env o.key).copyOk) else none

lemma downloadStep_gets (dir : String) (env : String → DownloadOutcome)
    (s : DLState) (o : S3Object) :
    (downloadStep dir env s o).gets =
      if (env o.key).mkdirOk then s.gets ++ [o.key] else s.gets := by
  unfold downloadStep
  cases h1 : (env o.key).mkdirOk <;> cases h2 : (env o.key).getOk <;>
    cases h3 : (env o.key).createOk <;> by_cases hs : 0 < o.size <;>
      simp [h1, h2, h3, hs]

lemma downloadStep_tree (dir : String) (env : String → DownloadOutcome)
    (s : DLState) (o : S3Object) :
    (downloadStep dir env s o).tree =
      if stagedCond env o then treeInsert s.tree (toLocalPath dir o.key) (env o.key).copyOk
      else s.tree := by
  unfold downloadStep stagedCond
  cases h1 : (env o.key).mkdirOk <;> cases h2 : (env o.key).getOk <;>
    cases h3 : (env o.key).createOk <;> by_cases hs : 0 < o.size <;>
      simp [h1, h2, h3, hs]

lemma foldl_download_gets (dir : String) (env : String → DownloadOutcome) :
    ∀ (objs : List S3Object) (s : DLState),
      (objs.foldl (downloadStep dir env) s).gets =
        s.gets ++ (objs.filter (fun o => (env o.key).mkdirOk)).map S3Object.key := by
  intro objs
  induction objs with
  | nil => intro s; simp
  | cons o rest ih =>
    intro s
    rw [List.foldl_cons, ih]
    cases h : (env o.key).mkdirOk <;> simp [downloadStep_gets, h, List.filter_cons]

/-- C9's core: a `GetObject` request is issued exactly for the objects whose
per-key directory creation succeeded, in listing order — independent of size. -/
lemma runDownload_gets (dir : String) (env : String → DownloadOutcome)
    (objs : List S3Object) :
    (runDownload dir env objs).gets =
      (objs.filter (fun o => (env o.key).mkdirOk)).map S3Object.key := by
  unfold runDownload
  rw [foldl_download_gets]
  rfl

lemma treeInsert_of_not_mem (t : List (String × Bool)) (p : String) (b : Bool)
    (h : ∀ q ∈ t, q.1 ≠ p) : treeInsert t p b = t ++ [(p, b)] := by
  unfold treeInsert
  congr 1
  rw [List.filter_eq_self]
  intro q hq
  simpa using h q hq

lemma foldl_download_tree (dir : String) (env : String → DownloadOutcome) :
    ∀ (objs : List S3Object) (s : DLState),
      (objs.map (fun o => toLocalPath dir o.key)).Nodup →
      (∀ q ∈ s.tree, q.1 ∉ objs.map (fun o => toLocalPath dir o.key)) →
      (objs.foldl (downloadStep dir env) s).tree =
        s.tree ++ objs.filterMap (stagedEntry dir env) := by
  intro objs
  induction objs with
  | nil => intro s _ _; simp
  | cons o rest ih =>
    intro s hnd hdis
    rw [List.map_cons, List.nodup_cons] at hnd
    rw [List.foldl_cons, ih _ hnd.2, downloadStep_tree]
    · cases hc : stagedCond env o with
      | true =>
        rw [treeInsert_of_not_mem _ _ _ (fun q hq => by
          have := hdis q hq
          simp only [List.map_cons, List.mem_cons] at this
          exact fun h => this (Or.inl h))]
        simp [stagedEntry, hc]
      | false => simp [stagedEntry, hc]
    · intro q hq
      rw [downloadStep_tree] at hq
      cases hc : stagedCond env o with
      | true =>
        simp only [hc, if_pos] at hq
        unfold treeInsert at hq
        rcases List.mem_append.mp hq with hq1 | hq2
        · have := hdis q (List.mem_of_mem_filter hq1)
          simp only [List.map_cons, List.mem_cons] at this
          exact fun h => this (Or.inr h)
        · simp only [List.mem_singleton] at hq2
          subst hq2
          exact hnd.1
      | false =>
        simp only [hc, Bool.false_eq_true, if_false] at hq
        have := hdis q hq
        simp only [List.map_cons, List.mem_cons] at this
        exact fun h => this (Or.inr h)

/-- C2's core: when no two listed objects collide on the same staging path,
the staging tree after the loop holds exactly the entry of every object that
reached a successful `os.Create`, flagged by whether its `io.Copy` succeeded. -/
lemma runDownload_tree (dir : String) (env : String → DownloadOutcome)
    (objs : List S3Object)
    (hnd : (objs.map (fun o => toLocalPath dir o.key)).Nodup) :
    (runDownload dir env objs).tree = objs.filterMap (stagedEntry dir env) := by
  unfold runDownload
  rw [foldl_download_tree dir env objs _ hnd (by intro q hq; simp at hq)]
  rfl

/-! ## Characterizing the upload walk -/

/-- The keys `uploadFiles` sends for a list of entries it walks without any
failure: its non-directory entries of positive size, in walk order. -/
def putsOf (dir : String) (l : List WalkEntry) : List String :=
  (l.filter (fun e => !e.isDir && decide (0 < e.size))).map
    (fun e => toObjectKey dir e.path)

lemma runUpload_nil (dir : String) (s : ULState) : runUpload dir [] s = (s, none) := rfl

lemma runUpload_cons (dir : String) (e : WalkEntry) (rest : List WalkEntry) (s : ULState) :
    runUpload dir (e :: rest) s =
      (if e.walkErr then (s, some .walkErr)
       else if e.isDir then runUpload dir rest s
       else if e.openOk = false then (s, some .openErr)
       else if 0 < e.size then
         (if e.putOk then runUpload dir rest ⟨s.puts ++ [toObjectKey dir e.path]⟩
          else (⟨s.puts ++ [toObjectKey dir e.path]⟩, some .putErr))
       else runUpload dir rest s) := rfl

/-- Walking past entries that all succeed only accumulates their keys:
the walk continues with the rest of the entries. -/
lemma runUpload_ok_leading (dir : String) :
    ∀ (pre rest : List WalkEntry) (s : ULState),
      (∀ x ∈ pre, x.walkErr = false ∧
        (x.isDir = false → x.openOk = true ∧ x.putOk = true)) →
      runUpload dir (pre ++ rest) s =
        runUpload dir rest ⟨s.puts ++ putsOf dir pre⟩ := by
  intro pre
  induction pre with
  | nil =>
    intro rest s _
    cases s
    simp [putsOf]
  | cons x pre ih =>
    intro rest s hp
    have hx := hp x (List.mem_cons_self x pre)
    have hp' : ∀ y ∈ pre, y.walkErr = false ∧
        (y.isDir = false → y.openOk = true ∧ y.putOk = true) :=
      fun y hy => hp y (List.mem_cons_of_mem x hy)
    rw [List.cons_append]
    cases hd : x.isDir with
    | true =>
      have : runUpload dir (x :: (pre ++ rest)) s = runUpload dir (pre ++ rest) s := by
        rw [runUpload_cons]
        simp [hx.1, hd]
      rw [this, ih rest s hp']
      simp [putsOf, List.filter_cons, hd]
    | false =>
      have hopen := (hx.2 hd).1
      have hput := (hx.2 hd).2
      by_cases hs : 0 < x.size
      · have : runUpload dir (x :: (pre ++ rest)) s =
            runUpload dir (pre ++ rest) ⟨s.puts ++ [toObjectKey dir x.path]⟩ := by
          rw [runUpload_cons]
          simp [hx.1, hd, hopen, hput, hs]
        rw [this, ih rest _ hp']
        simp [putsOf, List.filter_cons, hd, hs]
      · have : runUpload dir (x :: (pre ++ rest)) s = runUpload dir (pre ++ rest) s := by
          rw [runUpload_cons]
          simp [hx.1, hd, hopen, hs]
        rw [this, ih rest s hp']
        simp [putsOf, List.filter_cons, hd, hs]

/-- Every key that was ever sent came from a non-directory entry of positive
size that the walk visited. -/
lemma runUpload_puts_origin (dir : String) :
    ∀ (l : List WalkEntry) (s : ULState) (k : String),
      k ∈ (runUpload dir l s).1.puts →
      k ∈ s.puts ∨ ∃ e ∈ l, e.isDir = false ∧ 0 < e.size ∧ k = toObjectKey dir e.path := by
  intro l
  induction l with
  | nil =>
    intro s k h
    left
    simpa [runUpload_nil] using h
  | cons e rest ih =>
    intro s k h
    cases hw : e.walkErr with
    | true =>
      left
      rw [runUpload_cons] at h
      simpa [hw] using h
    | false =>
      cases hd : e.isDir with
      | true =>
        have h' : k ∈ (runUpload dir rest s).1.puts := by
          rw [runUpload_cons] at h
          simpa [hw, hd] using h
        rcases ih s k h' with h1 | ⟨e', he', hp⟩
        · exact Or.inl h1
        · exact Or.inr ⟨e', List.mem_cons_of_mem e he', hp⟩
      | false =>
        cases ho : e.openOk with
        | false =>
          left
          rw [runUpload_cons] at h
          simpa [hw, hd, ho] using h
        | true =>
          by_cases hs : 0 < e.size
          · cases hput : e.putOk with
            | true =>
              have h' : k ∈ (runUpload dir rest ⟨s.puts ++ [toObjectKey dir e.path]⟩).1.puts := by
                rw [runUpload_cons] at h
                simpa [hw, hd, ho, hs, hput] using h
              rcases ih _ k h' with h1 | ⟨e', he', hp⟩
              · rcases List.mem_append.mp h1 with h2 | h2
                · exact Or.inl h2
                · simp only [List.mem_singleton] at h2
                  exact Or.inr ⟨e, List.mem_cons_self e rest, hd, hs, h2⟩
              · exact Or.inr ⟨e', List.mem_cons_of_mem e he', hp⟩
            | false =>
              have h' : k ∈ s.puts ++ [toObjectKey dir e.path] := by
                rw [runUpload_cons] at h
                simpa [hw, hd, ho, hs, hput] using h
              rcases List.mem_append.mp h' with h2 | h2
              · exact Or.inl h2
              · simp only [List.mem_singleton] at h2
                exact Or.inr ⟨e, List.mem_cons_self e rest, hd, hs, h2⟩
          · have h' : k ∈ (runUpload dir rest s).1.puts := by
              rw [runUpload_cons] at h
              simpa [hw, hd, ho, hs] using h
            rcases ih s k h' with h1 | ⟨e', he', hp⟩
            · exact Or.inl h1
            · exact Or.inr ⟨e', List.mem_cons_of_mem e he', hp⟩

/-! ## Path lemmas: splitting and joining -/

lemma splitSlash_nil : splitSlash [] = [[]] := rfl

lemma splitSlash_cons (c : Char) (cs : List Char) :
    splitSlash (c :: cs) =
      (if c = '/' then [] :: splitSlash cs
       else (c :: (splitSlash cs).headD []) :: (splitSlash cs).tail) := rfl

lemma splitSlash_ne_nil (l : List Char) : splitSlash l ≠ [] := by
  cases l with
  | nil => simp [splitSlash_nil]
  | cons c cs =>
    rw [splitSlash_cons]
    by_cases h : c = '/' <;> simp [h]

lemma splitSlash_append (a b : List Char) :
    splitSlash (a ++ '/' :: b) = splitSlash a ++ splitSlash b := by
  induction a with
  | nil =>
    rw [List.nil_append, splitSlash_nil, splitSlash_cons]
    simp
  | cons c cs ih =>
    by_cases h : c = '/'
    · subst h
      rw [List.cons_append, splitSlash_cons, splitSlash_cons, if_pos rfl, if_pos rfl, ih]
      simp
    · rw [List.cons_append, splitSlash_cons, splitSlash_cons, if_neg h, if_neg h, ih]
      obtain ⟨w, ws, hw⟩ := List.exists_cons_of_ne_nil (splitSlash_ne_nil cs)
      rw [hw]
      simp

lemma splitSlash_no_slash (l : List Char) (h : ('/' : Char) ∉ l) : splitSlash l = [l] := by
  induction l with
  | nil => rfl
  | cons c cs ih =>
    rw [splitSlash_cons]
    have hc : c ≠ '/' := fun hc => h (hc ▸ List.mem_cons_self c cs)
    have hcs : ('/' : Char) ∉ cs := fun hm => h (List.mem_cons_of_mem c hm)
    simp [hc, ih hcs]

lemma splitSlash_mem_no_slash (l : List Char) : ∀ w ∈ splitSlash l, ('/' : Char) ∉ w := by
  induction l with
  | nil => simp [splitSlash_nil]
  | cons c cs ih =>
    intro w hw
    rw [splitSlash_cons] at hw
    by_cases h : c = '/'
    · simp only [h, if_true] at hw
      rcases List.mem_cons.mp hw with rfl | hw2
      · simp
      · exact ih w hw2
    · simp only [h, if_false] at hw
      obtain ⟨v, vs, hv⟩ := List.exists_cons_of_ne_nil (splitSlash_ne_nil cs)
      rw [hv] at hw
      simp only [List.headD_cons, List.tail_cons] at hw
      rcases List.mem_cons.mp hw with rfl | hw2
      · intro hmem
        rcases List.mem_cons.mp hmem with hc | hmem2
        · exact h hc.symm
        · exact ih v (hv ▸ List.mem_cons_self v vs) hmem2
      · exact ih w (hv ▸ List.mem_cons_of_mem v hw2)

lemma segsOf_nil : segsOf [] = [] := rfl

lemma segsOf_append (a b : List Char) : segsOf (a ++ '/' :: b) = segsOf a ++ segsOf b := by
  unfold segsOf
  rw [splitSlash_append, List.filter_append]

lemma segsOf_cons_slash (b : List Char) : segsOf ('/' :: b) = segsOf b := by
  have := segsOf_append [] b
  simpa [segsOf_nil] using this

lemma segsOf_no_slash (l : List Char) (h : ('/' : Char) ∉ l) (hne : l ≠ []) :
    segsOf l = [l] := by
  unfold segsOf
  rw [splitSlash_no_slash l h]
  simp [hne]

lemma segsOf_elems (p : List Char) : ∀ s ∈ segsOf p, s ≠ [] ∧ ('/' : Char) ∉ s := by
  intro s hs
  unfold segsOf at hs
  refine ⟨by simpa using List.of_mem_filter hs, ?_⟩
  exact splitSlash_mem_no_slash p s (List.mem_of_mem_filter hs)

lemma segsOf_joinSegs (ns : List Seg) (h : ∀ s ∈ ns, s ≠ [] ∧ ('/' : Char) ∉ s) :
    segsOf (joinSegs ns) = ns := by
  induction ns with
  | nil => rfl
  | cons s t ih =>
    cases t with
    | nil =>
      have hs := h s (List.mem_cons_self s [])
      show segsOf (joinSegs [s]) = [s]
      unfold joinSegs
      exact segsOf_no_slash s hs.2 hs.1
    | cons s2 t2 =>
      have hs := h s (List.mem_cons_self s (s2 :: t2))
      have h' : ∀ x ∈ s2 :: t2, x ≠ [] ∧ ('/' : Char) ∉ x :=
        fun x hx => h x (List.mem_cons_of_mem s hx)
      show segsOf (s ++ '/' :: joinSegs (s2 :: t2)) = s :: s2 :: t2
      rw [segsOf_append, segsOf_no_slash s hs.2 hs.1, ih h']
      rfl

/-! ## Path lemmas: cleaning and the clean normal form -/

lemma cleanStep_push (r : Bool) (st : List Seg) (s : Seg)
    (h1 : s ≠ ['.']) (h2 : s ≠ ['.', '.']) : cleanStep r st s = s :: st := by
  unfold cleanStep
  simp [h1, h2]

lemma foldl_cleanStep_free (r : Bool) :
    ∀ (l st : List Seg),
      (∀ s ∈ l, s ≠ ['.'] ∧ s ≠ ['.', '.']) →
      l.foldl (cleanStep r) st = l.reverse ++ st := by
  intro l
  induction l with
  | nil => intro st _; simp
  | cons s t ih =>
    intro st h
    have hs := h s (List.mem_cons_self s t)
    rw [List.foldl_cons, cleanStep_push r st s hs.1 hs.2,
        ih _ (fun x hx => h x (List.mem_cons_of_mem s hx))]
    simp

lemma cleanSegs_free (r : Bool) (l : List Seg)
    (h : ∀ s ∈ l, s ≠ ['.'] ∧ s ≠ ['.', '.']) : cleanSegs r l = l := by
  unfold cleanSegs
  rw [foldl_cleanStep_free r l [] h]
  simp

lemma cleanSegs_append_free (r : Bool) (xs ks : List Seg)
    (hks : ∀ s ∈ ks, s ≠ ['.'] ∧ s ≠ ['.', '.']) :
    cleanSegs r (xs ++ ks) = cleanSegs r xs ++ ks := by
  unfold cleanSegs
  rw [List.foldl_append, foldl_cleanStep_free r ks _ hks]
  simp

/-- The normal form `Clean` produces: nonempty slash-free elements, never
`"."`, and `".."` only as a leading run, which is absent when rooted. -/
def NFSegs (rooted : Bool) (l : List Seg) : Prop :=
  (∀ s ∈ l, s ≠ [] ∧ ('/' : Char) ∉ s ∧ s ≠ ['.']) ∧
  ∃ k ds, l = List.replicate k ['.', '.'] ++ ds ∧ ['.', '.'] ∉ ds ∧
    (rooted = true → k = 0)

/-- The same facts for the stack `Clean` folds over, which holds the output
elements in reverse: the `".."` run sits at the bottom. -/
def StackInv (rooted : Bool) (st : List Seg) : Prop :=
  (∀ s ∈ st, s ≠ [] ∧ ('/' : Char) ∉ s ∧ s ≠ ['.']) ∧
  ∃ ds k, st = ds ++ List.replicate k ['.', '.'] ∧ ['.', '.'] ∉ ds ∧
    (rooted = true → k = 0)

lemma stackInv_nil (r : Bool) : StackInv r [] :=
  ⟨by simp, [], 0, by simp, by simp, fun _ => rfl⟩

lemma cleanStep_inv (r : Bool) (st : List Seg) (s : Seg)
    (hst : StackInv r st) (hs : s ≠ [] ∧ ('/' : Char) ∉ s) :
    StackInv r (cleanStep r st s) := by
  obtain ⟨hel, ds, k, hdecomp, hdd, hk⟩ := hst
  by_cases h1 : s = ['.']
  · unfold cleanStep
    rw [if_pos h1]
    exact ⟨hel, ds, k, hdecomp, hdd, hk⟩
  · by_cases h2 : s = ['.', '.']
    · subst h2
      unfold cleanStep
      rw [if_neg h1, if_pos rfl]
      cases st with
      | nil =>
        cases r with
        | true => exact stackInv_nil true
        | false =>
          simp only [Bool.false_eq_true, if_false]
          refine ⟨?_, [], 1, by simp, by simp, by simp⟩
          intro x hx
          rcases List.mem_singleton.mp hx with rfl
          refine ⟨by simp, by decide, by decide⟩
      | cons top below =>
        show StackInv r (if top = ['.', '.'] then ['.', '.'] :: top :: below else below)
        by_cases htop : top = ['.', '.']
        · rw [if_pos htop]
          have hds : ds = [] := by
            cases ds with
            | nil => rfl
            | cons d ds2 =>
              exfalso
              apply hdd
              have : d = top := by
                have := hdecomp
                simp only [List.cons_append] at this
                exact (List.cons.injEq _ _ _ _ ▸ this).1.symm
              rw [htop] at this
              rw [this]
              exact List.mem_cons_self _ _
          rw [hds, List.nil_append] at hdecomp
          have hkpos : k ≠ 0 := by
            intro h0
            rw [h0] at hdecomp
            simp at hdecomp
          refine ⟨?_, [], k + 1, ?_, by simp, ?_⟩
          · intro x hx
            rcases List.mem_cons.mp hx with rfl | hx2
            · exact ⟨by simp, by decide, by decide⟩
            · exact hel x hx2
          · rw [List.nil_append, List.replicate_succ, hdecomp]
          · intro hr
            exact absurd (hk hr) hkpos
        · rw [if_neg htop]
          cases ds with
          | nil =>
            exfalso
            rw [List.nil_append] at hdecomp
            cases k with
            | zero => simp at hdecomp
            | succ k2 =>
              rw [List.replicate_succ] at hdecomp
              exact htop (List.cons.injEq _ _ _ _ ▸ hdecomp).1
          | cons d ds2 =>
            rw [List.cons_append] at hdecomp
            have hd : top = d := (List.cons.injEq _ _ _ _ ▸ hdecomp).1
            have hbelow : below = ds2 ++ List.replicate k ['.', '.'] :=
              (List.cons.injEq _ _ _ _ ▸ hdecomp).2
            refine ⟨?_, ds2, k, hbelow, fun hm => hdd (List.mem_cons_of_mem d hm), hk⟩
            intro x hx
            exact hel x (List.mem_cons_of_mem top (hbelow ▸ hx))
    · rw [cleanStep_push r st s h1 h2]
      refine ⟨?_, s :: ds, k, by rw [hdecomp, List.cons_append], ?_, hk⟩
      · intro x hx
        rcases List.mem_cons.mp hx with rfl | hx2
        · exact ⟨hs.1, hs.2, h1⟩
        · exact hel x hx2
      · intro hm
        rcases List.mem_cons.mp hm with h | hm2
        · exact h2 h.symm
        · exact hdd hm2

lemma foldl_cleanStep_inv (r : Bool) :
    ∀ (l : List Seg) (st : List Seg), StackInv r st →
      (∀ s ∈ l, s ≠ [] ∧ ('/' : Char) ∉ s) →
      StackInv r (l.foldl (cleanStep r) st) := by
  intro l
  induction l with
  | nil => intro st hst _; exact hst
  | cons s t ih =>
    intro st hst h
    rw [List.foldl_cons]
    exact ih _ (cleanStep_inv r st s hst (h s (List.mem_cons_self s t)))
      (fun x hx => h x (List.mem_cons_of_mem s hx))

lemma cleanSegs_NF (r : Bool) (l : List Seg)
    (h : ∀ s ∈ l, s ≠ [] ∧ ('/' : Char) ∉ s) : NFSegs r (cleanSegs r l) := by
  obtain ⟨hel, ds, k, hdecomp, hdd, hk⟩ :=
    foldl_cleanStep_inv r l [] (stackInv_nil r) h
  constructor
  · intro s hs
    exact hel s (List.mem_reverse.mp hs)
  · refine ⟨k, ds.reverse, ?_, fun hm => hdd (List.mem_reverse.mp hm), hk⟩
    unfold cleanSegs
    rw [hdecomp, List.reverse_append, List.reverse_replicate]


lemma cleanStep_dd_stack (j : Nat) :
    cleanStep false (List.replicate j (['.', '.'] : Seg)) ['.', '.'] =
      List.replicate (j + 1) (['.', '.'] : Seg) := by
  cases j with
  | zero => rfl
  | succ j2 => rfl

lemma foldl_cleanStep_replicate_dd (k : Nat) :
    ∀ j, (List.replicate k (['.', '.'] : Seg)).foldl (cleanStep false)
      (List.replicate j (['.', '.'] : Seg)) =
      List.replicate (k + j) (['.', '.'] : Seg) := by
  induction k with
  | zero => intro j; simp
  | succ k2 ih =>
    intro j
    rw [List.replicate_succ, List.foldl_cons, cleanStep_dd_stack, ih (j + 1)]
    congr 1
    omega

/-- A path already in clean normal form is unchanged by cleaning. -/
lemma cleanSegs_of_NF (r : Bool) (l : List Seg) (h : NFSegs r l) :
    cleanSegs r l = l := by
  obtain ⟨hel, k, ds, hdecomp, hdd, hk⟩ := h
  have hds : ∀ s ∈ ds, s ≠ ['.'] ∧ s ≠ ['.', '.'] := by
    intro s hs
    refine ⟨(hel s (hdecomp ▸ List.mem_append_right _ hs)).2.2, ?_⟩
    intro hx
    exact hdd (hx ▸ hs)
  rw [hdecomp]
  unfold cleanSegs
  rw [List.foldl_append]
  have hrep : (List.replicate k (['.', '.'] : Seg)).foldl (cleanStep r) [] =
      List.replicate k (['.', '.'] : Seg) := by
    cases r with
    | true =>
      rw [hk rfl]
      simp
    | false =>
      have := foldl_cleanStep_replicate_dd k 0
      simpa using this
  rw [hrep, foldl_cleanStep_free r ds _ hds]
  simp

/-- The head structure of a joined nonempty element list. -/
lemma joinSegs_cons_decomp (s : Seg) (t : List Seg) :
    ∃ z, joinSegs (s :: t) = s ++ z := by
  cases t with
  | nil => exact ⟨[], by simp [joinSegs]⟩
  | cons s2 t2 => exact ⟨'/' :: joinSegs (s2 :: t2), rfl⟩

lemma renderPath_ne_nil (r : Bool) (l : List Seg) (h : l ≠ [])
    (hh : ∀ s ∈ l, s ≠ []) : renderPath r l ≠ [] := by
  unfold renderPath
  rw [if_neg h]
  cases r with
  | true => simp
  | false =>
    simp only [Bool.false_eq_true, if_false]
    obtain ⟨s, t, rfl⟩ := List.exists_cons_of_ne_nil h
    obtain ⟨z, hz⟩ := joinSegs_cons_decomp s t
    rw [hz]
    have hs := hh s (List.mem_cons_self s t)
    obtain ⟨c, cs, rfl⟩ := List.exists_cons_of_ne_nil hs
    simp

lemma renderPath_isAbs (r : Bool) (l : List Seg) (h : l ≠ [])
    (hh : ∀ s ∈ l, s ≠ [] ∧ ('/' : Char) ∉ s) : isAbsL (renderPath r l) = r := by
  unfold renderPath
  rw [if_neg h]
  cases r with
  | true => simp [isAbsL]
  | false =>
    simp only [Bool.false_eq_true, if_false]
    obtain ⟨s, t, rfl⟩ := List.exists_cons_of_ne_nil h
    obtain ⟨z, hz⟩ := joinSegs_cons_decomp s t
    rw [hz]
    have hs := hh s (List.mem_cons_self s t)
    obtain ⟨c, cs, rfl⟩ := List.exists_cons_of_ne_nil hs.1
    have hc : c ≠ '/' := fun hc => hs.2 (hc ▸ List.mem_cons_self c cs)
    simp [isAbsL, hc]

lemma renderPath_segsOf (r : Bool) (l : List Seg) (h : l ≠ [])
    (hh : ∀ s ∈ l, s ≠ [] ∧ ('/' : Char) ∉ s) : segsOf (renderPath r l) = l := by
  unfold renderPath
  rw [if_neg h]
  cases r with
  | true =>
    show segsOf ('/' :: joinSegs l) = l
    rw [segsOf_cons_slash, segsOf_joinSegs l hh]
  | false =>
    simp only [Bool.false_eq_true, if_false]
    exact segsOf_joinSegs l hh

/-- Rendered normal forms are fixed points of `Clean`. -/
lemma cleanL_renderPath (r : Bool) (l : List Seg) (hne : l ≠ [])
    (hNF : NFSegs r l) : cleanL (renderPath r l) = renderPath r l := by
  have hel : ∀ s ∈ l, s ≠ [] ∧ ('/' : Char) ∉ s :=
    fun s hs => ⟨(hNF.1 s hs).1, (hNF.1 s hs).2.1⟩
  unfold cleanL
  rw [if_neg (renderPath_ne_nil r l hne (fun s hs => (hel s hs).1)),
      renderPath_isAbs r l hne hel, renderPath_segsOf r l hne hel,
      cleanSegs_of_NF r l hNF]

lemma lcpLen_cons (a b : Seg) (as1 bs1 : List Seg) :
    lcpLen (a :: as1) (b :: bs1) = if a = b then lcpLen as1 bs1 + 1 else 0 := rfl

lemma lcpLen_self_append (l m : List Seg) : lcpLen l (l ++ m) = l.length := by
  induction l with
  | nil => cases m <;> rfl
  | cons a l2 ih =>
    rw [List.cons_append, lcpLen_cons, if_pos rfl, ih]
    rfl

lemma toSlashL_id (p : List Char) : toSlashL p = p := by
  unfold toSlashL
  induction p with
  | nil => rfl
  | cons c cs ih =>
    rw [List.map_cons, ih]
    by_cases h : c = '/' <;> simp [h]

/-- A joined clean key never starts with `"./"`, so `TrimPrefix` leaves it
alone. -/
lemma trimLeading_joinSegs (ks : List Seg) (hne : ks ≠ [])
    (hseg : ∀ s ∈ ks, s ≠ [] ∧ ('/' : Char) ∉ s ∧ s ≠ ['.']) :
    trimLeading (joinSegs ks) ['.', '/'] = joinSegs ks := by
  obtain ⟨s, t, rfl⟩ := List.exists_cons_of_ne_nil hne
  have hs := hseg s (List.mem_cons_self s t)
  obtain ⟨c, cs, rfl⟩ := List.exists_cons_of_ne_nil hs.1
  obtain ⟨z, hz⟩ := joinSegs_cons_decomp (c :: cs) t
  unfold trimLeading
  rw [hz]
  by_cases hc : c = '.'
  · subst hc
    cases cs with
    | nil => exact absurd rfl hs.2.2
    | cons c2 cs2 =>
      have hc2 : c2 ≠ '/' := fun h =>
        hs.2.1 (h ▸ List.mem_cons_of_mem '.' (List.mem_cons_self c2 cs2))
      rw [if_neg ?_]
      show ¬ (['.', '/'].isPrefixOf ('.' :: c2 :: (cs2 ++ z)) = true)
      simp [List.isPrefixOf]
      exact fun h => hc2 h.symm
  · rw [if_neg ?_]
    show ¬ (['.', '/'].isPrefixOf (c :: (cs ++ z)) = true)
    simp [List.isPrefixOf]
    intro h
    exact absurd h.symm hc

lemma cleanL_eq_render (dir : List Char) :
    cleanL dir = renderPath (isAbsL dir) (cleanSegs (isAbsL dir) (segsOf dir)) := by
  by_cases h : dir = []
  · subst h; rfl
  · unfold cleanL; rw [if_neg h]

lemma renderPath_false (ks : List Seg) (hne : ks ≠ []) :
    renderPath false ks = joinSegs ks := by
  unfold renderPath; rw [if_neg hne]; simp

lemma renderPath_true (ks : List Seg) (hne : ks ≠ []) :
    renderPath true ks = '/' :: joinSegs ks := by
  unfold renderPath; rw [if_neg hne]; simp

lemma isAbsL_append (a b : List Char) (h : a ≠ []) : isAbsL (a ++ b) = isAbsL a := by
  obtain ⟨c, cs, rfl⟩ := List.exists_cons_of_ne_nil h
  simp [isAbsL]

lemma joinSegs_ne_nil (ks : List Seg) (hne : ks ≠ [])
    (hel : ∀ s ∈ ks, s ≠ []) : joinSegs ks ≠ [] := by
  obtain ⟨s, t, rfl⟩ := List.exists_cons_of_ne_nil hne
  obtain ⟨z, hz⟩ := joinSegs_cons_decomp s t
  rw [hz]
  obtain ⟨c, cs, rfl⟩ := List.exists_cons_of_ne_nil (hel s (List.mem_cons_self s t))
  simp

lemma joinSegs_ne_dot (ks : List Seg)
    (hel : ∀ s ∈ ks, s ≠ [] ∧ ('/' : Char) ∉ s) (hdot : (['.'] : Seg) ∉ ks) :
    joinSegs ks ≠ ['.'] := by
  intro h
  have h1 : segsOf (joinSegs ks) = ks := segsOf_joinSegs ks hel
  rw [h] at h1
  have h2 : segsOf ['.'] = [['.']] := rfl
  rw [h2] at h1
  exact hdot (h1 ▸ List.mem_cons_self _ _)

/-- Applying the code's `Rel`-based key recovery to a staging path built from
a normal-form base and a clean key gives back exactly the key's elements. -/
theorem relL_of_cleanKey (dir : List Char) (ks : List Seg) (hne : ks ≠ [])
    (hseg : ∀ s ∈ ks, s ≠ [] ∧ ('/' : Char) ∉ s ∧ s ≠ ['.'] ∧ s ≠ ['.', '.']) :
    relL dir (renderPath (isAbsL dir)
      (cleanSegs (isAbsL dir) (segsOf dir) ++ ks)) = some (joinSegs ks) := by
  have hksel : ∀ s ∈ ks, s ≠ [] ∧ ('/' : Char) ∉ s :=
    fun s hs => ⟨(hseg s hs).1, (hseg s hs).2.1⟩
  have hksdot : (['.'] : Seg) ∉ ks := fun hm => (hseg _ hm).2.2.1 rfl
  have hksdd : (['.', '.'] : Seg) ∉ ks := fun hm => (hseg _ hm).2.2.2 rfl
  set r := isAbsL dir with hrdef
  set bs := cleanSegs r (segsOf dir) with hbsdef
  have hNFbs : NFSegs r bs := cleanSegs_NF r _ (segsOf_elems dir)
  have hbsel : ∀ s ∈ bs, s ≠ [] ∧ ('/' : Char) ∉ s :=
    fun s hs => ⟨(hNFbs.1 s hs).1, (hNFbs.1 s hs).2.1⟩
  have hallel : ∀ s ∈ bs ++ ks, s ≠ [] ∧ ('/' : Char) ∉ s := by
    intro s hs
    rcases List.mem_append.mp hs with h | h
    · exact hbsel s h
    · exact hksel s h
  have hallne : bs ++ ks ≠ [] := fun h => hne (List.append_eq_nil.mp h).2
  have hNFall : NFSegs r (bs ++ ks) := by
    obtain ⟨hel, k0, ds, hdecomp, hdd, hk⟩ := hNFbs
    refine ⟨?_, k0, ds ++ ks, by rw [hdecomp, List.append_assoc], ?_, hk⟩
    · intro s hs
      rcases List.mem_append.mp hs with h | h
      · exact hel s h
      · exact ⟨(hseg s h).1, (hseg s h).2.1, (hseg s h).2.2.1⟩
    · intro hm
      rcases List.mem_append.mp hm with h | h
      · exact hdd h
      · exact hksdd h
  have hclean : cleanL (renderPath r (bs ++ ks)) = renderPath r (bs ++ ks) :=
    cleanL_renderPath r _ hallne hNFall
  have hTsegs : segsOf (renderPath r (bs ++ ks)) = bs ++ ks :=
    renderPath_segsOf r _ hallne hallel
  have habsT : isAbsL (renderPath r (bs ++ ks)) = r :=
    renderPath_isAbs r _ hallne hallel
  have hBrender : cleanL dir = renderPath r bs := cleanL_eq_render dir
  have hmain : segsOf (if cleanL dir = ['.'] then [] else cleanL dir) = bs ∧
      isAbsL (if cleanL dir = ['.'] then [] else cleanL dir) = r ∧
      renderPath r (bs ++ ks) ≠ cleanL dir := by
    by_cases hbs : bs = []
    · rcases Bool.eq_false_or_eq_true r with hrv | hrv
      · have hB : cleanL dir = ['/'] := by rw [hBrender, hbs, hrv]; rfl
        have hBnd : cleanL dir ≠ ['.'] := by rw [hB]; decide
        refine ⟨?_, ?_, ?_⟩
        · rw [if_neg hBnd, hB, hbs]; rfl
        · rw [if_neg hBnd, hB, hrv]; rfl
        · rw [hB, hbs, hrv, List.nil_append, renderPath_true ks hne]
          intro h
          have h2 : joinSegs ks = [] := (List.cons.injEq _ _ _ _ ▸ h).2
          exact joinSegs_ne_nil ks hne (fun s hs => (hksel s hs).1) h2
      · have hB : cleanL dir = ['.'] := by rw [hBrender, hbs, hrv]; rfl
        refine ⟨?_, ?_, ?_⟩
        · rw [hB, if_pos rfl, hbs]; rfl
        · rw [hB, if_pos rfl, hrv]; rfl
        · rw [hB, hbs, hrv, List.nil_append, renderPath_false ks hne]
          exact joinSegs_ne_dot ks hksel hksdot
    · have hBsegs : segsOf (cleanL dir) = bs := by
        rw [hBrender]; exact renderPath_segsOf r bs hbs hbsel
      have hBabs : isAbsL (cleanL dir) = r := by
        rw [hBrender]; exact renderPath_isAbs r bs hbs hbsel
      have hBnd : cleanL dir ≠ ['.'] := by
        intro h
        have := hBsegs
        rw [h] at this
        have h2 : segsOf ['.'] = [['.']] := rfl
        rw [h2] at this
        exact (hNFbs.1 _ (this ▸ List.mem_cons_self _ _)).2.2 rfl
      refine ⟨?_, ?_, ?_⟩
      · rw [if_neg hBnd]; exact hBsegs
      · rw [if_neg hBnd]; exact hBabs
      · intro h
        have := congrArg segsOf h
        rw [hTsegs, hBsegs] at this
        have hlen := congrArg List.length this
        rw [List.length_append] at hlen
        have : ks.length = 0 := by omega
        exact hne (List.length_eq_zero.mp this)
  obtain ⟨hb2segs, hb2abs, hTne⟩ := hmain
  simp only [relL]
  rw [hclean, if_neg hTne, hb2abs, habsT, if_neg (fun h => h rfl),
      hb2segs, hTsegs, lcpLen_self_append, List.drop_length, List.drop_left]
  rw [if_neg (by decide)]
  simp

/-- The corrected round-trip property at the character-list level: for a key
that is a `/`-join of nonempty, slash-free segments none of which is `.` or
`..`, mapping to a staging path and back recovers the key, whatever the
staging root. -/
theorem roundtripL (dir K : List Char) (ks : List Seg)
    (hK : K = joinSegs ks) (hne : ks ≠ [])
    (hseg : ∀ s ∈ ks, s ≠ [] ∧ ('/' : Char) ∉ s ∧ s ≠ ['.'] ∧ s ≠ ['.', '.']) :
    toObjectKeyL dir (toLocalPathL dir K) = K := by
  have hksel : ∀ s ∈ ks, s ≠ [] ∧ ('/' : Char) ∉ s :=
    fun s hs => ⟨(hseg s hs).1, (hseg s hs).2.1⟩
  have hksfree : ∀ s ∈ ks, s ≠ ['.'] ∧ s ≠ ['.', '.'] :=
    fun s hs => ⟨(hseg s hs).2.2.1, (hseg s hs).2.2.2⟩
  have hKne : K ≠ [] := by
    rw [hK]
    exact joinSegs_ne_nil ks hne (fun s hs => (hksel s hs).1)
  have hsegsK : segsOf K = ks := by rw [hK]; exact segsOf_joinSegs ks hksel
  have hKabs : isAbsL K = false := by
    rw [hK, ← renderPath_false ks hne]
    exact renderPath_isAbs false ks hne hksel
  have hT0 : toLocalPathL dir K =
      renderPath (isAbsL dir) (cleanSegs (isAbsL dir) (segsOf dir) ++ ks) := by
    by_cases hdir : dir = []
    · subst hdir
      show joinL [] K = _
      unfold joinL
      rw [if_pos rfl, if_neg hKne]
      show cleanL K = renderPath false ([] ++ ks)
      unfold cleanL
      rw [if_neg hKne, hsegsK, hKabs, cleanSegs_free false ks hksfree, List.nil_append]
    · show joinL dir K = _
      unfold joinL
      rw [if_neg hdir]
      have hpne : dir ++ '/' :: K ≠ [] := by
        intro h
        exact hdir (List.append_eq_nil.mp h).1
      unfold cleanL
      rw [if_neg hpne, isAbsL_append dir ('/' :: K) hdir, segsOf_append, hsegsK,
          cleanSegs_append_free _ _ ks hksfree]
  rw [hT0]
  unfold toObjectKeyL
  rw [relL_of_cleanKey dir ks hne hseg]
  show trimLeading (toSlashL (joinSegs ks)) ['.', '/'] = K
  rw [toSlashL_id, trimLeading_joinSegs ks hne
    (fun s hs => ⟨(hseg s hs).1, (hseg s hs).2.1, (hseg s hs).2.2.1⟩)]
  exact hK.symm

/-! ## The claims -/

/-- C1: the claim that the download phase enumerates every object of the
bucket, the lister continuing across result-truncation markers until
exhaustion, FAILS on the code: `downloadFiles` issues exactly one
`ListObjects` call and never consults `IsTruncated`.  For a bucket whose
listing spans two pages, the reply's truncation marker is set, yet only the
first page's object is ever fetched; the second page's object is silently
dropped — against the spec's explicit pagination requirement (a code bug). -/
theorem c1_single_page_listing_drops_objects :
    (listObjectsCall [[⟨"a.txt", 1⟩], [⟨"b.txt", 1⟩]]).isTruncated = true ∧
    (bucketObjects [[⟨"a.txt", 1⟩], [⟨"b.txt", 1⟩]]).map S3Object.key =
      ["a.txt", "b.txt"] ∧
    downloadFiles "staging"
        (.ok (listObjectsCall [[⟨"a.txt", 1⟩], [⟨"b.txt", 1⟩]]))
        (fun _ => allOk) =
      .ok (runDownload "staging" (fun _ => allOk) [⟨"a.txt", 1⟩]) ∧
    (runDownload "staging" (fun _ => allOk) [⟨"a.txt", 1⟩]).gets = ["a.txt"] :=
  ⟨rfl, rfl, rfl, rfl⟩

/-- C2, counterexample: the staging tree does not contain exactly the
objects whose fetch and full write succeeded.  For one listed object of size
5 whose `GetObject` and `os.Create` succeed but whose `io.Copy` fails, the
claim demands an empty staging tree, yet the created file remains in the
tree (flagged as not fully written). -/
theorem c2_partial_file_counterexample :
    (runDownload "staging" (fun _ => ⟨true, true, true, false⟩)
      [⟨"a.txt", 5⟩]).tree = [("staging/a.txt", false)] ∧
    (fun _ => (⟨true, true, true, false⟩ : DownloadOutcome)) "a.txt" =
      ⟨true, true, true, false⟩ :=
  ⟨rfl, rfl⟩

/-- C2, amended: when no two listed objects collide on the same staging
path, the staging tree after the download phase contains exactly one file
per object whose directory creation, fetch and file creation succeeded and
whose size is positive — that file flagged as fully written exactly when its
body copy also succeeded — and nothing else. -/
theorem c2_staging_tree_exact (dir : String) (env : String → DownloadOutcome)
    (objs : List S3Object)
    (hnd : (objs.map (fun o => toLocalPath dir o.key)).Nodup) :
    (runDownload dir env objs).tree = objs.filterMap (stagedEntry dir env) :=
  runDownload_tree dir env objs hnd

/-- Witness for C2's theorem at a concrete input: two objects, one empty,
under an all-success environment. -/
theorem c2_staging_tree_exact_witness :
    (([⟨"a.txt", 5⟩, ⟨"d/b.txt", 0⟩] : List S3Object).map
      (fun o => toLocalPath "staging" o.key)).Nodup ∧
    (runDownload "staging" (fun _ => allOk) [⟨"a.txt", 5⟩, ⟨"d/b.txt", 0⟩]).tree =
      ([⟨"a.txt", 5⟩, ⟨"d/b.txt", 0⟩] : List S3Object).filterMap
        (stagedEntry "staging" (fun _ => allOk)) :=
  ⟨by decide, c2_staging_tree_exact "staging" (fun _ => allOk) _ (by decide)⟩

lemma filterMap_stagedEntry_single_fail (dir : String)
    (env : String → DownloadOutcome) (mk : String)
    (henv : ∀ k, k ≠ mk → env k = allOk) (hm : (env mk).getOk = false) :
    ∀ objs : List S3Object, (∀ o ∈ objs, 0 < o.size) →
      objs.filterMap (stagedEntry dir env) =
        (objs.filter (fun o => o.key ≠ mk)).map
          (fun o => (toLocalPath dir o.key, true)) := by
  intro objs
  induction objs with
  | nil => intro _; rfl
  | cons o rest ih =>
    intro hsz
    have hrest := ih (fun x hx => hsz x (List.mem_cons_of_mem o hx))
    rw [List.filterMap_cons, List.filter_cons]
    by_cases ho : o.key = mk
    · have hcond : stagedCond env o = false := by
        unfold stagedCond
        rw [ho, hm]
        simp
      simp [stagedEntry, hcond, ho, hrest]
    · have henvo := henv o.key ho
      have hcond : stagedCond env o = true := by
        unfold stagedCond
        rw [henvo]
        show (true && true && decide (0 < o.size) && true) = true
        simp [hsz o (List.mem_cons_self o rest)]
      have hcopy : (env o.key).copyOk = true := by rw [henvo]; rfl
      simp [stagedEntry, hcond, ho, hrest, hcopy]

/-- C3: per-object failure is non-fatal.  For a listing of objects of
positive size with pairwise distinct staging paths, in an environment where
every call for every key other than `mk` succeeds and the fetch of `mk`
fails, the download phase still returns success (so the pipeline proceeds to
the upload phase), and the staging tree holds exactly the other objects,
each fully written.  The failing key is skipped; all remaining objects are
processed. -/
theorem c3_best_effort_download (dir : String) (env : String → DownloadOutcome)
    (objs : List S3Object) (mk : String)
    (hnd : (objs.map (fun o => toLocalPath dir o.key)).Nodup)
    (hsz : ∀ o ∈ objs, 0 < o.size)
    (henv : ∀ k, k ≠ mk → env k = allOk)
    (hm : (env mk).getOk = false) :
    downloadFiles dir (.ok ⟨objs, false⟩) env = .ok (runDownload dir env objs) ∧
    (runDownload dir env objs).tree =
      (objs.filter (fun o => o.key ≠ mk)).map
        (fun o => (toLocalPath dir o.key, true)) := by
  refine ⟨rfl, ?_⟩
  rw [runDownload_tree dir env objs hnd]
  exact filterMap_stagedEntry_single_fail dir env mk henv hm objs hsz

/-- Witness for C3's theorem: three objects `a`, `b`, `c` where the fetch of
`b` fails; the tree holds exactly `a` and `c`. -/
theorem c3_best_effort_download_witness :
    downloadFiles "staging" (.ok ⟨[⟨"a", 3⟩, ⟨"b", 2⟩, ⟨"c", 1⟩], false⟩)
        (fun k => if k = "b" then ⟨true, false, true, true⟩ else allOk) =
      .ok (runDownload "staging"
        (fun k => if k = "b" then ⟨true, false, true, true⟩ else allOk)
        [⟨"a", 3⟩, ⟨"b", 2⟩, ⟨"c", 1⟩]) ∧
    (runDownload "staging"
        (fun k => if k = "b" then ⟨true, false, true, true⟩ else allOk)
        [⟨"a", 3⟩, ⟨"b", 2⟩, ⟨"c", 1⟩]).tree =
      (([⟨"a", 3⟩, ⟨"b", 2⟩, ⟨"c", 1⟩] : List S3Object).filter
        (fun o => o.key ≠ "b")).map
          (fun o => (toLocalPath "staging" o.key, true)) :=
  c3_best_effort_download "staging"
    (fun k => if k = "b" then ⟨true, false, true, true⟩ else allOk)
    [⟨"a", 3⟩, ⟨"b", 2⟩, ⟨"c", 1⟩] "b"
    (by decide) (by decide) (fun k hk => if_neg hk) rfl

/-- C4: the first upload error aborts the walk.  For a staging walk of
well-behaved entries `pre` followed by a file `e` whose `PutObject` fails
(and anything after), the callback's error ends `filepath.Walk`: exactly the
qualifying files of `pre` plus `e` itself are attempted — nothing after `e`
is touched — the upload phase surfaces the error, and `main` then exits with
status 1. -/
theorem c4_upload_abort_on_first_error (dir : String) (pre post : List WalkEntry)
    (e : WalkEntry)
    (hpre : ∀ x ∈ pre, x.walkErr = false ∧
      (x.isDir = false → x.openOk = true ∧ x.putOk = true))
    (he1 : e.walkErr = false) (he2 : e.isDir = false) (he3 : e.openOk = true)
    (he4 : 0 < e.size) (he5 : e.putOk = false) :
    runUpload dir (pre ++ e :: post) ⟨[]⟩ =
      (⟨putsOf dir pre ++ [toObjectKey dir e.path]⟩, some .putErr) ∧
    uploadFilesM dir (pre ++ e :: post) = some .putErr ∧
    (∀ env : MainEnv, env.stagingDir = dir → env.entries = pre ++ e :: post →
      env.configOk = true → env.mkdirOk = true →
      (∃ out, env.listing = Except.ok out) → (mainRun env).1 = 1) := by
  have hstep : runUpload dir (e :: post) ⟨putsOf dir pre⟩ =
      (⟨putsOf dir pre ++ [toObjectKey dir e.path]⟩, some .putErr) := by
    rw [runUpload_cons]
    simp [he1, he2, he3, he4, he5]
  have h1 : runUpload dir (pre ++ e :: post) ⟨[]⟩ =
      (⟨putsOf dir pre ++ [toObjectKey dir e.path]⟩, some .putErr) := by
    rw [runUpload_ok_leading dir pre (e :: post) ⟨[]⟩ hpre]
    simpa using hstep
  have h2 : uploadFilesM dir (pre ++ e :: post) = some .putErr := by
    unfold uploadFilesM
    rw [h1]
  refine ⟨h1, h2, ?_⟩
  rintro env hdir hent hc hm ⟨out, hout⟩
  unfold mainRun
  rw [hc, hm, hout, hdir, hent, h2]
  rfl

/-- Witness for C4's theorem: a walk over the root directory, one good file,
the failing file, and a file after it; only `a.txt` and the failing `b.txt`
are attempted and the run fails. -/
theorem c4_upload_abort_on_first_error_witness :
    runUpload "staging"
        [⟨"staging", true, 0, false, true, true⟩,
         ⟨"staging/a.txt", false, 3, false, true, true⟩,
         ⟨"staging/b.txt", false, 2, false, true, false⟩,
         ⟨"staging/c.txt", false, 1, false, true, true⟩] ⟨[]⟩ =
      (⟨putsOf "staging"
          [⟨"staging", true, 0, false, true, true⟩,
           ⟨"staging/a.txt", false, 3, false, true, true⟩] ++
        [toObjectKey "staging" "staging/b.txt"]⟩, some .putErr) ∧
    uploadFilesM "staging"
        [⟨"staging", true, 0, false, true, true⟩,
         ⟨"staging/a.txt", false, 3, false, true, true⟩,
         ⟨"staging/b.txt", false, 2, false, true, false⟩,
         ⟨"staging/c.txt", false, 1, false, true, true⟩] = some .putErr ∧
    (mainRun ⟨true, true, .ok ⟨[], false⟩, fun _ => allOk, "staging",
        [⟨"staging", true, 0, false, true, true⟩,
         ⟨"staging/a.txt", false, 3, false, true, true⟩,
         ⟨"staging/b.txt", false, 2, false, true, false⟩,
         ⟨"staging/c.txt", false, 1, false, true, true⟩], true⟩).1 = 1 := by
  have h := c4_upload_abort_on_first_error "staging"
    [⟨"staging", true, 0, false, true, true⟩,
     ⟨"staging/a.txt", false, 3, false, true, true⟩]
    [⟨"staging/c.txt", false, 1, false, true, true⟩]
    ⟨"staging/b.txt", false, 2, false, true, false⟩
    (by decide) rfl rfl rfl (by decide) rfl
  exact ⟨h.1, h.2.1, h.2.2 _ rfl rfl rfl rfl ⟨⟨[], false⟩, rfl⟩⟩

/-- C5, counterexample: the round trip is not the identity for every key
containing only forward slashes.  The key `a//b` (an empty segment) is
normalized by `filepath.Join`'s cleaning when the staging path is built, and
maps back to `a/b`, not to itself. -/
theorem c5_roundtrip_counterexample :
    toObjectKey "staging" (toLocalPath "staging" "a//b") = "a/b" ∧
    "a/b" ≠ "a//b" :=
  ⟨rfl, by decide⟩

/-- C5, amended: for every object key that is a `/`-join of nonempty
segments none of which is `.` or `..` (a clean relative slash path — keys
with empty, `.` or `..` segments or a leading or trailing `/` are lexically
normalized by `filepath.Join` and need not survive), mapping the key to its
staging path and back yields the key unchanged, for every staging root. -/
theorem c5_roundtrip_clean_keys (dir K : String) (ks : List Seg)
    (hK : K.data = joinSegs ks) (hne : ks ≠ [])
    (hseg : ∀ s ∈ ks, s ≠ [] ∧ ('/' : Char) ∉ s ∧ s ≠ ['.'] ∧ s ≠ ['.', '.']) :
    toObjectKey dir (toLocalPath dir K) = K := by
  have h := roundtripL dir.data K.data ks hK hne hseg
  show String.mk (toObjectKeyL dir.data (toLocalPathL dir.data K.data)) = K
  rw [h]

/-- Witness for C5's theorem at the key `a/b.txt` and staging root
`staging`. -/
theorem c5_roundtrip_clean_keys_witness :
    toObjectKey "staging" (toLocalPath "staging" "a/b.txt") = "a/b.txt" :=
  c5_roundtrip_clean_keys "staging" "a/b.txt" [['a'], ['b', '.', 't', 'x', 't']]
    (by decide) (by decide) (by decide)

/-- C6: a zero-size object produces no staging file and a zero-size file is
never uploaded.  First conjunct: for any environment, a listed object of
size 0 never has a file at its staging path after the download loop (staging
paths assumed collision-free).  Second conjunct: every key the upload walk
ever sends comes from a non-directory entry of positive size, so no
zero-size file reaches the destination — together, a zero-size source object
never appears at the destination. -/
theorem c6_skip_empty :
    (∀ (dir : String) (env : String → DownloadOutcome) (objs : List S3Object)
        (o : S3Object),
      (objs.map (fun o => toLocalPath dir o.key)).Nodup → o ∈ objs → o.size = 0 →
      toLocalPath dir o.key ∉ (runDownload dir env objs).tree.map Prod.fst) ∧
    (∀ (dir : String) (entries : List WalkEntry) (k : String),
      k ∈ (runUpload dir entries ⟨[]⟩).1.puts →
      ∃ e ∈ entries, e.isDir = false ∧ 0 < e.size ∧ k = toObjectKey dir e.path) := by
  constructor
  · intro dir env objs o hnd ho hsz hmem
    rw [runDownload_tree dir env objs hnd] at hmem
    rcases List.mem_map.mp hmem with ⟨p, hp, hfst⟩
    rcases List.mem_filterMap.mp hp with ⟨o2, ho2, hse⟩
    unfold stagedEntry at hse
    by_cases hc : stagedCond env o2 = true
    · rw [if_pos hc] at hse
      have hp1 : p.1 = toLocalPath dir o2.key := by
        injection hse with h
        rw [← h]
      have heq : o2 = o :=
        List.inj_on_of_nodup_map hnd ho2 ho (by rw [← hp1, hfst])
      subst heq
      unfold stagedCond at hc
      rw [hsz] at hc
      simp at hc
    · rw [if_neg hc] at hse
      exact absurd hse (by simp)
  · intro dir entries k hk
    rcases runUpload_puts_origin dir entries ⟨[]⟩ k hk with h1 | h2
    · simp at h1
    · exact h2

/-- Witness for C6's theorem: the empty object `a` leaves no staging file
while `b` does; and the only key a one-file walk sends comes from its single
positive-size file. -/
theorem c6_skip_empty_witness :
    (toLocalPath "staging" "a" ∉
      (runDownload "staging" (fun _ => allOk) [⟨"a", 0⟩, ⟨"b", 2⟩]).tree.map
        Prod.fst) ∧
    (∃ e ∈ [(⟨"staging/b", false, 2, false, true, true⟩ : WalkEntry)],
      e.isDir = false ∧ 0 < e.size ∧
        toObjectKey "staging" "staging/b" = toObjectKey "staging" e.path) :=
  ⟨c6_skip_empty.1 "staging" (fun _ => allOk) [⟨"a", 0⟩, ⟨"b", 2⟩] ⟨"a", 0⟩
      (by decide) (by decide) rfl,
   c6_skip_empty.2 "staging" [⟨"staging/b", false, 2, false, true, true⟩]
      (toObjectKey "staging" "staging/b") (by decide)⟩

/-- C7: the exit contract of `main`.  When config read, staging creation,
download, upload and removal all succeed, the run exits 0 with the
completion message and the staging directory is gone; when only the
recursive removal fails, the run exits with a non-zero status and the
deletion error message (staging left in place). -/
theorem c7_exit_contract :
    (∀ env : MainEnv, env.configOk = true → env.mkdirOk = true →
      (∃ out, env.listing = Except.ok out) →
      uploadFilesM env.stagingDir env.entries = none → env.removeOk = true →
      mainRun env =
        (0, "Download and upload complete. Deleted local files and directory.",
          false)) ∧
    (∀ env : MainEnv, env.configOk = true → env.mkdirOk = true →
      (∃ out, env.listing = Except.ok out) →
      uploadFilesM env.stagingDir env.entries = none → env.removeOk = false →
      mainRun env = (1, "Error deleting files and directory:", true) ∧
        (mainRun env).1 ≠ 0) := by
  constructor
  · rintro env h1 h2 ⟨out, hout⟩ h4 h5
    unfold mainRun
    rw [h1, h2, hout, h4, h5]
    rfl
  · rintro env h1 h2 ⟨out, hout⟩ h4 h5
    have heq : mainRun env = (1, "Error deleting files and directory:", true) := by
      unfold mainRun
      rw [h1, h2, hout, h4, h5]
      rfl
    exact ⟨heq, by rw [heq]; decide⟩

/-- Witness for C7's theorem: a concrete all-success run and a concrete run
whose removal fails. -/
theorem c7_exit_contract_witness :
    mainRun ⟨true, true, .ok ⟨[], false⟩, fun _ => allOk, "staging", [], true⟩ =
      (0, "Download and upload complete. Deleted local files and directory.",
        false) ∧
    mainRun ⟨true, true, .ok ⟨[], false⟩, fun _ => allOk, "staging", [], false⟩ =
      (1, "Error deleting files and directory:", true) :=
  ⟨c7_exit_contract.1
      ⟨true, true, .ok ⟨[], false⟩, fun _ => allOk, "staging", [], true⟩
      rfl rfl ⟨⟨[], false⟩, rfl⟩ rfl rfl,
   (c7_exit_contract.2
      ⟨true, true, .ok ⟨[], false⟩, fun _ => allOk, "staging", [], false⟩
      rfl rfl ⟨⟨[], false⟩, rfl⟩ rfl rfl).1⟩

/-- C8: FAILS ON THE CODE (code bug): handles are not released within the
iteration that opened them.  `defer localFile.Close()` sits inside the loop
of `downloadFiles`, so every close runs only when the function returns; with
two successfully downloaded objects, one handle is open after the first
iteration and two are open after the second — the claimed bound of at most
one open handle during the enumeration is violated. -/
theorem c8_handles_accumulate :
    (runDownload "staging" (fun _ => allOk) [⟨"a.txt", 1⟩]).openHandles = 1 ∧
    (runDownload "staging" (fun _ => allOk)
      [⟨"a.txt", 1⟩, ⟨"b.txt", 1⟩]).openHandles = 2 :=
  ⟨rfl, rfl⟩

/-- C9, counterexample: the downloader does not issue a get-object request
for every listed object: when `MkdirAll` fails for the single listed object
`a.txt`, the loop continues before any fetch, so no `GetObject` request is
issued at all. -/
theorem c9_mkdir_failure_skips_get :
    (runDownload "staging" (fun _ => ⟨false, true, true, true⟩)
      [⟨"a.txt", 5⟩]).gets = [] ∧
    ([(⟨"a.txt", 5⟩ : S3Object)].map S3Object.key) = ["a.txt"] :=
  ⟨rfl, rfl⟩

/-- C9, amended: a get-object request is issued exactly for the listed
objects whose per-key directory creation succeeded — independent of size, so
zero-size objects among them are still fetched (body discarded), a fetch
error for them is skipped like any other per-object error, and the phase
still returns success. -/
theorem c9_get_requests (dir : String) (env : String → DownloadOutcome)
    (objs : List S3Object) :
    (runDownload dir env objs).gets =
      (objs.filter (fun o => (env o.key).mkdirOk)).map S3Object.key ∧
    downloadFiles dir (.ok ⟨objs, false⟩) env = .ok (runDownload dir env objs) :=
  ⟨runDownload_gets dir env objs, rfl⟩

/-- C10: the uploader opens every visited regular file before checking its
size.  An `os.Open` failure on a zero-size file (which the size check would
otherwise skip) aborts the entire walk and fails the upload phase; when the
open succeeds, a zero-size file is skipped — the size guard protects only
`PutObject`. -/
theorem c10_open_before_size_check (dir : String) (e : WalkEntry)
    (rest : List WalkEntry) (s : ULState)
    (hw : e.walkErr = false) (hd : e.isDir = false) :
    (e.openOk = false →
      runUpload dir (e :: rest) s = (s, some .openErr) ∧
      uploadFilesM dir (e :: rest) = some .openErr) ∧
    (e.openOk = true → e.size = 0 →
      runUpload dir (e :: rest) s = runUpload dir rest s) := by
  constructor
  · intro ho
    constructor
    · rw [runUpload_cons]
      simp [hw, hd, ho]
    · unfold uploadFilesM
      rw [runUpload_cons]
      simp [hw, hd, ho]
  · intro ho hsz
    rw [runUpload_cons]
    simp [hw, hd, ho, hsz]

/-- Witness for C10's theorem: a single zero-size file whose open fails
aborts the walk with the open error. -/
theorem c10_open_before_size_check_witness :
    runUpload "staging" [⟨"staging/z.txt", false, 0, false, false, true⟩] ⟨[]⟩ =
      (⟨[]⟩, some UploadErr.openErr) ∧
    uploadFilesM "staging" [⟨"staging/z.txt", false, 0, false, false, true⟩] =
      some UploadErr.openErr :=
  (c10_open_before_size_check "staging"
    ⟨"staging/z.txt", false, 0, false, false, true⟩ [] ⟨[]⟩ rfl rfl).1 rfl
